import Mathlib

/-!
Verification of the metrics push module (`push.go`) of this repository.

The module has two parts:

* `addExtraLabels dst src extraLabels` — the label-injection text transform.
  It walks `src` line by line (splitting on the byte `'\n'`, a trailing line
  with no terminator counts as a complete line), rewrites every line to carry
  the extra labels, and appends the result to `dst`.  The Go code panics on a
  line containing neither a brace nor a space; we model the panic as `none`.
* `initPush` — the synchronous validation phase of the push scheduler and a
  model of the per-tick push step (snapshot → optional label injection →
  HTTP POST, with transport errors and non-2xx statuses logged and skipped).

Bytes are modelled as `Char` lists.  `bytes.IndexByte` and
`bytes.LastIndexByte` are embedded as `indexByte?` / `lastIndexByte?`
returning `Option Nat` (`none` for Go's `-1`).
-/

/-- The character `\x7b` (opening curly brace). -/
def braceOpen : Char := '\x7b'

/-- The character `\x7d` (closing curly brace). -/
def braceClose : Char := '\x7d'

/-- Embedding of Go's `bytes.IndexByte`: index of the first occurrence of `c`
in `s`, or `none` when absent (Go returns `-1`). -/
def indexByte? (s : List Char) (c : Char) : Option Nat :=
  match s with
  | [] => none
  | a :: rest => if a = c then some 0 else (indexByte? rest c).map (fun k => k + 1)

/-- Embedding of Go's `bytes.LastIndexByte`: index of the last occurrence of
`c` in `s`, or `none` when absent (Go returns `-1`). -/
def lastIndexByte? (s : List Char) (c : Char) : Option Nat :=
  match s with
  | [] => none
  | a :: rest =>
    match lastIndexByte? rest c with
    | some k => some (k + 1)
    | none => if a = c then some 0 else none

/-- The body of the per-line rewrite in `addExtraLabels` (push.go lines
121–138): if the line contains a brace, splice the extra labels right after
the first `\x7b` followed by a comma; otherwise split at the last space and
wrap the extra labels in braces between name and value; otherwise the Go code
panics (modelled as `none`).  The trailing `'\n'` append (line 138) is
included.  The rewritten line is appended to `dst`. -/
def processLine (dst line extraLabels : List Char) : Option (List Char) :=
  match indexByte? line braceOpen with
  | some n =>
    some (dst ++ line.take (n + 1) ++ extraLabels ++ [','] ++ line.drop (n + 1) ++ ['\n'])
  | none =>
    match lastIndexByte? line ' ' with
    | some n =>
      some (dst ++ line.take n ++ [braceOpen] ++ extraLabels ++ [braceClose] ++ line.drop n ++ ['\n'])
    | none => none

/-- Embedding of `addExtraLabels` (push.go lines 110–141).  The loop peels
lines off `src` at each `'\n'`; when no `'\n'` remains the rest of `src` is
the final line.  `none` models the panic on a malformed line. -/
def addExtraLabels (dst src extraLabels : List Char) : Option (List Char) :=
  if hs : src = [] then some dst
  else
    match indexByte? src '\n' with
    | some n =>
      match processLine dst (src.take n) extraLabels with
      | some d => addExtraLabels d (src.drop (n + 1)) extraLabels
      | none => none
    | none => processLine dst src extraLabels
termination_by src.length
decreasing_by
  have h0 : 0 < src.length := List.length_pos.2 hs
  simp [List.length_drop]
  omega

theorem indexByte?_eq_none {s : List Char} {c : Char} :
    indexByte? s c = none ↔ c ∉ s := by
  induction s with
  | nil => simp [indexByte?]
  | cons a rest ih =>
    rw [indexByte?]
    by_cases hac : a = c
    · subst hac
      simp
    · simp only [hac, if_false, Option.map_eq_none', ih, List.mem_cons]
      constructor
      · intro hn hor
        rcases hor with hca | hcr
        · exact hac hca.symm
        · exact hn hcr
      · intro hn hcr
        exact hn (Or.inr hcr)

theorem indexByte?_some_decomp {s : List Char} {c : Char} {n : Nat}
    (h : indexByte? s c = some n) :
    s.take n ++ c :: s.drop (n + 1) = s ∧ c ∉ s.take n := by
  induction s generalizing n with
  | nil => simp [indexByte?] at h
  | cons a rest ih =>
    rw [indexByte?] at h
    by_cases hac : a = c
    · simp only [hac, if_true] at h
      obtain rfl : n = 0 := by
        injection h with h
        exact h.symm
      subst hac
      simp
    · simp only [hac, if_false, Option.map_eq_some'] at h
      obtain ⟨k, hk, hkn⟩ := h
      subst hkn
      obtain ⟨hdec, hmem⟩ := ih hk
      refine ⟨?_, ?_⟩
      · simpa using hdec
      · simp only [List.take_succ_cons, List.mem_cons]
        intro hor
        rcases hor with hca | hcr
        · exact hac hca.symm
        · exact hmem hcr

theorem exists_indexByte?_of_mem {s : List Char} {c : Char} (h : c ∈ s) :
    ∃ n, indexByte? s c = some n := by
  rcases hi : indexByte? s c with _ | n
  · exact absurd h (indexByte?_eq_none.1 hi)
  · exact ⟨n, rfl⟩

theorem indexByte?_append_cons {pre rest : List Char} {c : Char} (h : c ∉ pre) :
    indexByte? (pre ++ c :: rest) c = some pre.length := by
  induction pre with
  | nil => simp [indexByte?]
  | cons a pre' ih =>
    have hac : ¬(a = c) := fun hh => h (hh ▸ List.mem_cons_self _ _)
    rw [List.cons_append, indexByte?]
    simp [hac, ih (fun hm => h (List.mem_cons_of_mem _ hm))]

theorem lastIndexByte?_some_mem {s : List Char} {c : Char} {n : Nat}
    (h : lastIndexByte? s c = some n) : c ∈ s := by
  induction s generalizing n with
  | nil => simp [lastIndexByte?] at h
  | cons a rest ih =>
    rw [lastIndexByte?] at h
    rcases hr : lastIndexByte? rest c with _ | k
    · rw [hr] at h
      by_cases hac : a = c
      · subst hac
        exact List.mem_cons_self _ _
      · simp [hac] at h
    · rw [hr] at h
      exact List.mem_cons_of_mem _ (ih hr)

theorem lastIndexByte?_eq_none {s : List Char} {c : Char} :
    lastIndexByte? s c = none ↔ c ∉ s := by
  induction s with
  | nil => simp [lastIndexByte?]
  | cons a rest ih =>
    rw [lastIndexByte?]
    rcases hr : lastIndexByte? rest c with _ | k
    · have hcr : c ∉ rest := ih.1 hr
      by_cases hac : a = c
      · subst hac
        simp
      · rw [if_neg hac]
        constructor
        · intro _
          simp only [List.mem_cons]
          intro hor
          rcases hor with hca | hmem
          · exact hac hca.symm
          · exact hcr hmem
        · intro _
          rfl
    · have hcr : c ∈ rest := lastIndexByte?_some_mem hr
      simp [hcr]

theorem lastIndexByte?_some_decomp {s : List Char} {c : Char} {n : Nat}
    (h : lastIndexByte? s c = some n) :
    s.take n ++ c :: s.drop (n + 1) = s ∧ c ∉ s.drop (n + 1) := by
  induction s generalizing n with
  | nil => simp [lastIndexByte?] at h
  | cons a rest ih =>
    rw [lastIndexByte?] at h
    rcases hr : lastIndexByte? rest c with _ | k
    · rw [hr] at h
      by_cases hac : a = c
      · rw [if_pos hac] at h
        obtain rfl : n = 0 := by
          injection h with h
          exact h.symm
        have hcr : c ∉ rest := lastIndexByte?_eq_none.1 hr
        subst hac
        simpa using hcr
      · rw [if_neg hac] at h
        exact absurd h (by simp)
    · rw [hr] at h
      obtain rfl : n = k + 1 := by
        injection h with h
        exact h.symm
      obtain ⟨hdec, hmem⟩ := ih hr
      constructor
      · simpa using hdec
      · simpa using hmem

theorem exists_lastIndexByte?_of_mem {s : List Char} {c : Char} (h : c ∈ s) :
    ∃ n, lastIndexByte? s c = some n := by
  rcases hi : lastIndexByte? s c with _ | n
  · exact absurd h (lastIndexByte?_eq_none.1 hi)
  · exact ⟨n, rfl⟩

/-- Helper for `linesOf`: scans the block accumulating the current line in
`cur`; a `'\n'` closes the current line, and a trailing `'\n'` does not open
an empty final line. -/
def linesOfAux : List Char → List Char → List (List Char)
  | cur, [] => [cur]
  | cur, c :: rest =>
    if c = '\n' then
      match rest with
      | [] => [cur]
      | _ :: _ => cur :: linesOfAux [] rest
    else
      linesOfAux (cur ++ [c]) rest

/-- The sequence of lines the `addExtraLabels` loop iterates over: the
maximal `'\n'`-free segments of the block, one per loop iteration.  A
trailing segment with no terminator is a complete line, a terminator at the
very end does not create an extra empty line, and the empty block has no
lines. -/
def linesOf (src : List Char) : List (List Char) :=
  if src = [] then [] else linesOfAux [] src

/-- The pure per-line rewrite: exactly what `processLine` appends to `dst`,
minus the trailing `'\n'`. -/
def injectLine (line extraLabels : List Char) : Option (List Char) :=
  match indexByte? line braceOpen with
  | some n => some (line.take (n + 1) ++ extraLabels ++ ',' :: line.drop (n + 1))
  | none =>
    match lastIndexByte? line ' ' with
    | some n => some (line.take n ++ braceOpen :: (extraLabels ++ braceClose :: line.drop n))
    | none => none

/-- `injectLine` applied to every line; `none` as soon as one line is
malformed. -/
def injectLines (ls : List (List Char)) (extraLabels : List Char) :
    Option (List (List Char)) :=
  match ls with
  | [] => some []
  | l :: rest =>
    match injectLine l extraLabels with
    | none => none
    | some t => (injectLines rest extraLabels).map (fun ts => t :: ts)

/-- Concatenation of a list of lines, each terminated by `'\n'`. -/
def joinLines : List (List Char) → List Char
  | [] => []
  | t :: rest => t ++ '\n' :: joinLines rest

theorem linesOfAux_cons_ne {cur : List Char} {c : Char} {rest : List Char}
    (hc : ¬(c = '\n')) :
    linesOfAux cur (c :: rest) = linesOfAux (cur ++ [c]) rest := by
  rw [linesOfAux.eq_def]
  simp only [if_neg hc]

theorem linesOfAux_newline_nil (cur : List Char) :
    linesOfAux cur ['\n'] = [cur] := by
  rw [linesOfAux.eq_def]
  simp

theorem linesOfAux_newline_cons (cur : List Char) (b : Char) (rest : List Char) :
    linesOfAux cur ('\n' :: b :: rest) = cur :: linesOfAux [] (b :: rest) := by
  rw [linesOfAux.eq_def]
  simp

theorem linesOfAux_no_newline {s : List Char} (h : '\n' ∉ s) (cur : List Char) :
    linesOfAux cur s = [cur ++ s] := by
  induction s generalizing cur with
  | nil => simp [linesOfAux]
  | cons c rest ih =>
    have hc : ¬(c = '\n') := fun hh => h (hh ▸ List.mem_cons_self _ _)
    rw [linesOfAux_cons_ne hc, ih (fun hm => h (List.mem_cons_of_mem _ hm))]
    simp

theorem linesOfAux_append_newline {pre : List Char} (h : '\n' ∉ pre)
    (cur rest : List Char) :
    linesOfAux cur (pre ++ '\n' :: rest) = (cur ++ pre) :: linesOf rest := by
  induction pre generalizing cur with
  | nil =>
    rw [List.nil_append]
    cases rest with
    | nil =>
      rw [linesOfAux_newline_nil]
      simp [linesOf]
    | cons b rest' =>
      rw [linesOfAux_newline_cons]
      simp [linesOf]
  | cons a pre' ih =>
    have ha : ¬(a = '\n') := fun hh => h (hh ▸ List.mem_cons_self _ _)
    rw [List.cons_append, linesOfAux_cons_ne ha,
      ih (fun hm => h (List.mem_cons_of_mem _ hm))]
    simp

theorem linesOf_eq_single {src : List Char} (hne : src ≠ [])
    (h : indexByte? src '\n' = none) :
    linesOf src = [src] := by
  rw [linesOf, if_neg hne, linesOfAux_no_newline (indexByte?_eq_none.1 h)]
  simp

theorem linesOf_eq_cons {src : List Char} {n : Nat}
    (h : indexByte? src '\n' = some n) :
    linesOf src = src.take n :: linesOf (src.drop (n + 1)) := by
  obtain ⟨hdec, hnot⟩ := indexByte?_some_decomp h
  have hne : src ≠ [] := by
    intro hh
    subst hh
    simp [indexByte?] at h
  rw [linesOf, if_neg hne]
  conv_lhs => rw [← hdec]
  rw [linesOfAux_append_newline hnot]
  simp

theorem processLine_eq (dst line e : List Char) :
    processLine dst line e = (injectLine line e).map (fun t => dst ++ t ++ ['\n']) := by
  rw [processLine, injectLine]
  rcases h1 : indexByte? line braceOpen with _ | n
  · rcases h2 : lastIndexByte? line ' ' with _ | n
    · simp
    · simp [List.append_assoc]
  · simp [List.append_assoc]

/-- Main characterization of the transform: `addExtraLabels` processes
exactly the lines of `src` (as split by the loop), rewrites each with
`injectLine`, terminates each with `'\n'`, and appends the concatenation to
`dst`; it fails exactly when some line fails. -/
theorem addExtraLabels_eq_injectLines (src : List Char) :
    ∀ dst e, addExtraLabels dst src e =
      (injectLines (linesOf src) e).map (fun ts => dst ++ joinLines ts) := by
  intro dst e
  by_cases hs : src = []
  · subst hs
    rw [addExtraLabels.eq_def]
    simp [linesOf, injectLines, joinLines]
  · rw [addExtraLabels.eq_def, dif_neg hs]
    simp only [processLine_eq]
    rcases h : indexByte? src '\n' with _ | n
    · rw [linesOf_eq_single hs h, injectLines]
      rcases h2 : injectLine src e with _ | t
      · simp
      · simp [injectLines, joinLines]
    · rw [linesOf_eq_cons h, injectLines]
      rcases h2 : injectLine (src.take n) e with _ | t
      · simp [h2]
      · simp only [h2, Option.map_some']
        rw [addExtraLabels_eq_injectLines (src.drop (n + 1))]
        rcases h3 : injectLines (linesOf (src.drop (n + 1))) e with _ | ts
        · simp
        · simp [joinLines]
termination_by src.length
decreasing_by
  have h0 : 0 < src.length := List.length_pos.2 hs
  simp [List.length_drop]
  omega

theorem injectLine_nil (e : List Char) : injectLine [] e = none := rfl

theorem injectLines_of_mem_none {ls : List (List Char)} {l e : List Char}
    (hmem : l ∈ ls) (h : injectLine l e = none) : injectLines ls e = none := by
  induction ls with
  | nil => simp at hmem
  | cons a rest ih =>
    rw [injectLines]
    rcases List.mem_cons.1 hmem with rfl | hmem'
    · simp [h]
    · rcases ha : injectLine a e with _ | t
      · simp
      · simp [ih hmem']

theorem injectLines_all_isSome {ls : List (List Char)} {e : List Char}
    (h : ∀ l ∈ ls, (injectLine l e).isSome) :
    ∃ ts, injectLines ls e = some ts ∧ ts.length = ls.length := by
  induction ls with
  | nil => exact ⟨[], rfl, rfl⟩
  | cons a rest ih =>
    obtain ⟨t, ht⟩ := Option.isSome_iff_exists.1 (h a (List.mem_cons_self _ _))
    obtain ⟨ts, hts, hlen⟩ := ih (fun l hl => h l (List.mem_cons_of_mem _ hl))
    refine ⟨t :: ts, ?_, by simp [hlen]⟩
    rw [injectLines, ht, hts]
    rfl

theorem injectLine_isSome_of_valid {l : List Char} (e : List Char)
    (h : braceOpen ∈ l ∨ ' ' ∈ l) : (injectLine l e).isSome := by
  rw [injectLine]
  rcases h1 : indexByte? l braceOpen with _ | n
  · have hnb : braceOpen ∉ l := indexByte?_eq_none.1 h1
    have hsp : ' ' ∈ l := by
      rcases h with hb | hs
      · exact absurd hb hnb
      · exact hs
    obtain ⟨n, hn⟩ := exists_lastIndexByte?_of_mem hsp
    rw [hn]
    rfl
  · rfl

theorem injectLine_some_no_newline {l e t : List Char} (hl : '\n' ∉ l)
    (he : '\n' ∉ e) (h : injectLine l e = some t) : '\n' ∉ t := by
  rw [injectLine] at h
  rcases h1 : indexByte? l braceOpen with _ | n
  · rw [h1] at h
    rcases h2 : lastIndexByte? l ' ' with _ | n
    · rw [h2] at h
      simp at h
    · rw [h2] at h
      obtain rfl : l.take n ++ braceOpen :: (e ++ braceClose :: l.drop n) = t := by
        injection h
      intro hmem
      simp only [List.mem_append, List.mem_cons] at hmem
      rcases hmem with htk | hbo | hee | hbc | hdr
      · exact hl (List.take_subset _ _ htk)
      · exact absurd hbo (by decide)
      · exact he hee
      · exact absurd hbc (by decide)
      · exact hl (List.drop_subset _ _ hdr)
  · rw [h1] at h
    obtain rfl : l.take (n + 1) ++ e ++ ',' :: l.drop (n + 1) = t := by
      injection h
    intro hmem
    simp only [List.mem_append, List.mem_cons] at hmem
    rcases hmem with (htk | hee) | hcm | hdr
    · exact hl (List.take_subset _ _ htk)
    · exact he hee
    · exact absurd hcm (by decide)
    · exact hl (List.drop_subset _ _ hdr)

theorem linesOfAux_no_newline_mem {s : List Char} :
    ∀ {cur l : List Char}, '\n' ∉ cur → l ∈ linesOfAux cur s → '\n' ∉ l := by
  induction s with
  | nil =>
    intro cur l hcur hl
    rw [linesOfAux] at hl
    simp at hl
    exact hl ▸ hcur
  | cons c rest ih =>
    intro cur l hcur hl
    by_cases hc : c = '\n'
    · subst hc
      cases rest with
      | nil =>
        rw [linesOfAux_newline_nil] at hl
        simp at hl
        exact hl ▸ hcur
      | cons b rest' =>
        rw [linesOfAux_newline_cons] at hl
        rcases List.mem_cons.1 hl with rfl | hl'
        · exact hcur
        · exact ih (by simp) hl'
    · rw [linesOfAux_cons_ne hc] at hl
      have hcur' : '\n' ∉ cur ++ [c] := by
        intro hm
        rcases List.mem_append.1 hm with hm1 | hm2
        · exact hcur hm1
        · simp at hm2
          exact hc hm2.symm
      exact ih hcur' hl

theorem linesOf_no_newline {src l : List Char} (hl : l ∈ linesOf src) :
    '\n' ∉ l := by
  rw [linesOf] at hl
  by_cases hs : src = []
  · simp [hs] at hl
  · rw [if_neg hs] at hl
    exact linesOfAux_no_newline_mem (by simp) hl

theorem linesOf_joinLines {ts : List (List Char)}
    (h : ∀ t ∈ ts, '\n' ∉ t) : linesOf (joinLines ts) = ts := by
  induction ts with
  | nil => simp [joinLines, linesOf]
  | cons t rest ih =>
    rw [joinLines]
    have hne : t ++ '\n' :: joinLines rest ≠ [] := by simp
    rw [linesOf, if_neg hne,
      linesOfAux_append_newline (h t (List.mem_cons_self _ _)) [] _,
      ih (fun u hu => h u (List.mem_cons_of_mem _ hu))]
    simp

theorem injectLines_some_mem {ls ts : List (List Char)} {e : List Char}
    (h : injectLines ls e = some ts) {t : List Char} (ht : t ∈ ts) :
    ∃ l ∈ ls, injectLine l e = some t := by
  induction ls generalizing ts with
  | nil =>
    rw [injectLines] at h
    obtain rfl : ts = [] := by
      injection h with h
      exact h.symm
    simp at ht
  | cons a rest ih =>
    rw [injectLines] at h
    rcases ha : injectLine a e with _ | u
    · rw [ha] at h
      simp at h
    · rw [ha] at h
      rcases hr : injectLines rest e with _ | us
      · rw [hr] at h
        simp at h
      · rw [hr] at h
        obtain rfl : u :: us = ts := by
          injection h
        rcases List.mem_cons.1 ht with rfl | ht'
        · exact ⟨a, List.mem_cons_self _ _, ha⟩
        · obtain ⟨l, hl, hil⟩ := ih hr ht'
          exact ⟨l, List.mem_cons_of_mem _ hl, hil⟩

theorem linesOfAux_newline_ne (cur : List Char) {rest : List Char}
    (h : rest ≠ []) :
    linesOfAux cur ('\n' :: rest) = cur :: linesOfAux [] rest := by
  cases rest with
  | nil => exact absurd rfl h
  | cons b r => exact linesOfAux_newline_cons cur b r

theorem nil_mem_linesOfAux_double_newline (src1 : List Char) :
    ∀ cur src2, [] ∈ linesOfAux cur (src1 ++ '\n' :: '\n' :: src2) := by
  induction src1 with
  | nil =>
    intro cur src2
    rw [List.nil_append, linesOfAux_newline_ne cur (by simp)]
    refine List.mem_cons_of_mem _ ?_
    rcases src2 with _ | ⟨b, s2⟩
    · rw [linesOfAux_newline_nil]
      exact List.mem_singleton.2 rfl
    · rw [linesOfAux_newline_ne [] (by simp)]
      exact List.mem_cons_self _ _
  | cons a src1' ih =>
    intro cur src2
    rw [List.cons_append]
    by_cases ha : a = '\n'
    · subst ha
      rw [linesOfAux_newline_ne cur (by simp)]
      exact List.mem_cons_of_mem _ (ih [] src2)
    · rw [linesOfAux_cons_ne ha]
      exact ih (cur ++ [a]) src2

theorem nil_mem_linesOf_double (src1 src2 : List Char) :
    [] ∈ linesOf (src1 ++ '\n' :: '\n' :: src2) := by
  rw [linesOf, if_neg (by simp)]
  exact nil_mem_linesOfAux_double_newline src1 [] src2

theorem nil_mem_linesOf_leading (src2 : List Char) :
    [] ∈ linesOf ('\n' :: src2) := by
  rw [linesOf, if_neg (by simp)]
  rcases src2 with _ | ⟨b, s2⟩
  · rw [linesOfAux_newline_nil]
    exact List.mem_singleton.2 rfl
  · rw [linesOfAux_newline_ne [] (by simp)]
    exact List.mem_cons_self _ _

theorem addExtraLabels_none_of_nil_line {src : List Char} (dst e : List Char)
    (h : [] ∈ linesOf src) : addExtraLabels dst src e = none := by
  rw [addExtraLabels_eq_injectLines, injectLines_of_mem_none h (injectLine_nil e)]
  rfl

/-! ## The push scheduler model -/

/-- States of the extra-labels fragment validator. -/
inductive TagState where
  | start : TagState
  | name : TagState
  | eq : TagState
  | value : TagState
  | closed : TagState
deriving DecidableEq

/-- Characters allowed in a label name. -/
def isLabelNameChar (c : Char) : Bool :=
  c.isAlpha || c.isDigit || c = '_'

/-- One transition of the fragment validator. -/
def tagStep : TagState → Char → Option TagState
  | TagState.start, c => if isLabelNameChar c then some TagState.name else none
  | TagState.name, c =>
    if isLabelNameChar c then some TagState.name
    else if c = '=' then some TagState.eq else none
  | TagState.eq, c => if c = '"' then some TagState.value else none
  | TagState.value, c =>
    if c = '"' then some TagState.closed
    else if c = '\n' then none else some TagState.value
  | TagState.closed, c => if c = ',' then some TagState.start else none

/-- Fold step threading a failed validation through. -/
def runTagStep (st : Option TagState) (c : Char) : Option TagState :=
  match st with
  | none => none
  | some s => tagStep s c

/-- Modelled from the spec: `validateTags` is called by `initPush` (push.go
line 81) but is defined outside this file set.  Per the spec, the
extra-labels fragment, "if non-empty, must parse as a comma-separated
sequence of `name="value"` pairs" and the empty fragment is valid; names are
alphanumeric/underscore, values are quoted strings (no quote or newline
inside). -/
def validateTags (s : List Char) : Bool :=
  s.isEmpty ||
    decide (s.foldl runTagStep (some TagState.start) = some TagState.closed)

/-- A configured push target: the data `initPush` captures for the
background loop. -/
structure PushConfig where
  interval : Int
  extraLabels : List Char

/-- Embedding of the synchronous phase of `initPush` (push.go lines 77–84):
a non-positive interval panics, an invalid extra-labels string panics, and
only then is the background goroutine started.  `none` models the panic —
raised before any background activity, snapshot production, or HTTP request;
`some cfg` models a successfully started push loop. -/
def initPush (interval : Int) (extraLabels : List Char) : Option PushConfig :=
  if interval ≤ 0 then none
  else if validateTags extraLabels then some ⟨interval, extraLabels⟩
  else none

/-- Abstract outcome of the HTTP POST of one tick: either a transport error
(`http.Post` returned an error) or a response with the given status code. -/
inductive HttpOutcome where
  | transportError : HttpOutcome
  | response : Nat → HttpOutcome
deriving DecidableEq

/-- What one tick of the push loop does, as observable behaviour. -/
inductive TickResult where
  | pushed : TickResult
  | loggedTransportError : TickResult
  | loggedBadStatus : Nat → TickResult
  | panicked : TickResult
deriving DecidableEq

/-- Embedding of the payload preparation of one tick (push.go lines 89–95):
when `len(extraLabels) > 0` the snapshot is rewritten by `addExtraLabels`
into the reused buffer, otherwise the raw snapshot buffer is the payload.
`none` models the transform's panic. -/
def buildPayload (snapshot extraLabels : List Char) : Option (List Char) :=
  if extraLabels.length > 0 then addExtraLabels [] snapshot extraLabels
  else some snapshot

/-- Embedding of one tick of the push loop (push.go lines 89–105): build the
payload, POST it; a transport error is logged and the tick ends, a non-2xx
status (`resp.StatusCode/100 != 2`) is logged with the numeric status and
the tick ends, a 2xx response is a successful push. -/
def pushTick (snapshot extraLabels : List Char) (outcome : HttpOutcome) :
    TickResult :=
  match buildPayload snapshot extraLabels with
  | none => TickResult.panicked
  | some _ =>
    match outcome with
    | HttpOutcome.transportError => TickResult.loggedTransportError
    | HttpOutcome.response code =>
      if code / 100 ≠ 2 then TickResult.loggedBadStatus code
      else TickResult.pushed

/-- The push loop over a finite schedule of ticks, each supplying that
tick's snapshot and HTTP outcome: every tick runs `pushTick` and the loop
proceeds to the next tick whatever the delivery outcome; only a transform
panic kills the goroutine (modelled as `none`). -/
def pushLoop (extraLabels : List Char) :
    List (List Char × HttpOutcome) → Option (List TickResult)
  | [] => some []
  | (snap, oc) :: rest =>
    match pushTick snap extraLabels oc with
    | TickResult.panicked => none
    | r => (pushLoop extraLabels rest).map (fun rs => r :: rs)

theorem pushTick_ne_panicked {snap e : List Char} (oc : HttpOutcome)
    (hpay : (buildPayload snap e).isSome) :
    pushTick snap e oc ≠ TickResult.panicked := by
  obtain ⟨p, hp⟩ := Option.isSome_iff_exists.1 hpay
  rw [pushTick.eq_def, hp]
  rcases oc with _ | code
  · simp
  · by_cases hc : code / 100 ≠ 2 <;> simp [hc]

theorem pushLoop_cons (e snap : List Char) (oc : HttpOutcome)
    (rest : List (List Char × HttpOutcome))
    (h : pushTick snap e oc ≠ TickResult.panicked) :
    pushLoop e ((snap, oc) :: rest) =
      (pushLoop e rest).map (fun rs => pushTick snap e oc :: rs) := by
  rw [pushLoop]
  rcases hr : pushTick snap e oc with _ | _ | code | _
  · simp [hr]
  · simp [hr]
  · simp [hr]
  · exact absurd hr h

/-! ## The claims -/

/-- C1: for every input line that contains a brace, the label injector emits
the text of the line up to and including the first opening brace (position
`n` is the first brace: no brace occurs before it), then the extra-labels
fragment, then a comma, then the remainder of the line unchanged, followed
by a newline. -/
theorem claim_C1_brace_line (dst line e : List Char) (n : Nat)
    (hnl : '\n' ∉ line) (hbr : indexByte? line braceOpen = some n) :
    braceOpen ∉ line.take n ∧
      line.take n ++ braceOpen :: line.drop (n + 1) = line ∧
      addExtraLabels dst line e =
        some (dst ++ (line.take (n + 1) ++ e ++ ',' :: line.drop (n + 1)) ++ ['\n']) := by
  obtain ⟨hdec, hnotin⟩ := indexByte?_some_decomp hbr
  have hne : line ≠ [] := by
    intro hh
    subst hh
    simp [indexByte?] at hbr
  refine ⟨hnotin, hdec, ?_⟩
  rw [addExtraLabels_eq_injectLines, linesOf_eq_single hne (indexByte?_eq_none.2 hnl)]
  rw [injectLines, injectLine, hbr]
  simp [injectLines, joinLines]

/-- C1 witness: injecting extra labels b="2" into the line foo\x7ba="1"\x7d 5
yields exactly foo\x7bb="2",a="1"\x7d 5 followed by a newline. -/
theorem claim_C1_witness :
    braceOpen ∉ (String.toList "foo\x7ba=\"1\"\x7d 5").take 3 ∧
      (String.toList "foo\x7ba=\"1\"\x7d 5").take 3 ++ braceOpen ::
        (String.toList "foo\x7ba=\"1\"\x7d 5").drop 4 = String.toList "foo\x7ba=\"1\"\x7d 5" ∧
      addExtraLabels [] (String.toList "foo\x7ba=\"1\"\x7d 5") (String.toList "b=\"2\"") =
        some (String.toList "foo\x7bb=\"2\",a=\"1\"\x7d 5\n") :=
  claim_C1_brace_line [] (String.toList "foo\x7ba=\"1\"\x7d 5") (String.toList "b=\"2\"") 3
    (by decide) (by decide)

/-- C2: for every input line with no brace but at least one space, the label
injector emits the prefix before the last space (position `n` is the last
space: none occurs after it), then an opening brace, the extra-labels
fragment, a closing brace, then the original separator and value, followed
by a newline. -/
theorem claim_C2_space_line (dst line e : List Char) (n : Nat)
    (hnl : '\n' ∉ line) (hnb : braceOpen ∉ line)
    (hsp : lastIndexByte? line ' ' = some n) :
    line.take n ++ ' ' :: line.drop (n + 1) = line ∧
      ' ' ∉ line.drop (n + 1) ∧
      addExtraLabels dst line e =
        some (dst ++ (line.take n ++ braceOpen :: (e ++ braceClose :: line.drop n)) ++ ['\n']) := by
  obtain ⟨hdec, hnotin⟩ := lastIndexByte?_some_decomp hsp
  have hne : line ≠ [] := by
    intro hh
    subst hh
    simp [lastIndexByte?] at hsp
  refine ⟨hdec, hnotin, ?_⟩
  rw [addExtraLabels_eq_injectLines, linesOf_eq_single hne (indexByte?_eq_none.2 hnl)]
  rw [injectLines, injectLine, indexByte?_eq_none.2 hnb, hsp]
  simp [injectLines, joinLines]

/-- C2 witness: injecting extra labels b="2" into the line foo 5 yields
exactly foo\x7bb="2"\x7d 5 followed by a newline. -/
theorem claim_C2_witness :
    (String.toList "foo 5").take 3 ++ ' ' :: (String.toList "foo 5").drop 4 =
        String.toList "foo 5" ∧
      ' ' ∉ (String.toList "foo 5").drop 4 ∧
      addExtraLabels [] (String.toList "foo 5") (String.toList "b=\"2\"") =
        some (String.toList "foo\x7bb=\"2\"\x7d 5\n") :=
  claim_C2_space_line [] (String.toList "foo 5") (String.toList "b=\"2\"") 3
    (by decide) (by decide) (by decide)

/-- C3: a non-empty input line containing neither a brace nor a space makes
the label injector fail (the Go code panics, modelled as `none`), and this
is the only failure: on a block all of whose lines contain a brace or a
space the transform always produces output. -/
theorem claim_C3_malformed_line :
    (∀ dst line e, line ≠ [] → '\n' ∉ line → braceOpen ∉ line → ' ' ∉ line →
      addExtraLabels dst line e = none) ∧
    (∀ dst src e, (∀ l ∈ linesOf src, braceOpen ∈ l ∨ ' ' ∈ l) →
      (addExtraLabels dst src e).isSome) := by
  constructor
  · intro dst line e hne hnl hnb hnsp
    rw [addExtraLabels_eq_injectLines, linesOf_eq_single hne (indexByte?_eq_none.2 hnl)]
    rw [injectLines, injectLine, indexByte?_eq_none.2 hnb,
      lastIndexByte?_eq_none.2 hnsp]
    rfl
  · intro dst src e hvalid
    obtain ⟨ts, hts, hlen⟩ :=
      injectLines_all_isSome (fun l hl => injectLine_isSome_of_valid e (hvalid l hl))
    rw [addExtraLabels_eq_injectLines, hts]
    rfl

/-- C3 witness: the line abc (no brace, no space) makes the injector panic,
while the block foo 5 is transformed successfully. -/
theorem claim_C3_witness :
    addExtraLabels [] (String.toList "abc") (String.toList "b=\"2\"") = none ∧
      (addExtraLabels [] (String.toList "foo 5") (String.toList "b=\"2\"")).isSome :=
  ⟨claim_C3_malformed_line.1 [] (String.toList "abc") (String.toList "b=\"2\"")
      (by decide) (by decide) (by decide) (by decide),
    claim_C3_malformed_line.2 [] (String.toList "foo 5") (String.toList "b=\"2\"")
      (by decide)⟩

/-- C4: for every valid exposition block (every line has a brace or a
space) and every valid extra-labels fragment (a label fragment contains no
newline), the injector succeeds and its output is exactly the lines of the
input, in order, each rewritten by the per-line transform and each
terminated by `'\n'` — so the output has exactly as many lines as the
input; a trailing input line with no terminator counts as a complete
line (it is a line of `linesOf`). -/
theorem claim_C4_line_structure (src e : List Char)
    (he : '\n' ∉ e)
    (hvalid : ∀ l ∈ linesOf src, braceOpen ∈ l ∨ ' ' ∈ l) :
    ∃ ts, injectLines (linesOf src) e = some ts ∧
      addExtraLabels [] src e = some (joinLines ts) ∧
      ts.length = (linesOf src).length ∧
      linesOf (joinLines ts) = ts := by
  obtain ⟨ts, hts, hlen⟩ :=
    injectLines_all_isSome (fun l hl => injectLine_isSome_of_valid e (hvalid l hl))
  refine ⟨ts, hts, ?_, hlen, ?_⟩
  · rw [addExtraLabels_eq_injectLines, hts]
    simp
  · refine linesOf_joinLines (fun t ht => ?_)
    obtain ⟨l, hl, hil⟩ := injectLines_some_mem hts ht
    exact injectLine_some_no_newline (linesOf_no_newline hl) he hil

/-- C4 witness: a two-line block (one braced line, one label-less line,
final line unterminated) is rewritten line-for-line into two
newline-terminated lines. -/
theorem claim_C4_witness :
    ∃ ts, injectLines (linesOf (String.toList "foo\x7ba=\"1\"\x7d 5\nbar 7"))
        (String.toList "b=\"2\"") = some ts ∧
      addExtraLabels [] (String.toList "foo\x7ba=\"1\"\x7d 5\nbar 7")
        (String.toList "b=\"2\"") = some (joinLines ts) ∧
      ts.length = (linesOf (String.toList "foo\x7ba=\"1\"\x7d 5\nbar 7")).length ∧
      linesOf (joinLines ts) = ts :=
  claim_C4_line_structure (String.toList "foo\x7ba=\"1\"\x7d 5\nbar 7")
    (String.toList "b=\"2\"") (by decide) (by decide)

/-- C5: running the injector twice on the label-less line foo 5, first with
fragment b="2" and then with fragment c="3", prepends the second fragment
before the first: the result is exactly foo\x7bc="3",b="2"\x7d 5 followed by a
newline — the labels injected first are still present. -/
theorem claim_C5_nested_injection :
    (addExtraLabels [] (String.toList "foo 5") (String.toList "b=\"2\"")).bind
      (fun mid => addExtraLabels [] mid (String.toList "c=\"3\"")) =
      some (String.toList "foo\x7bc=\"3\",b=\"2\"\x7d 5\n") := by
  simp only [addExtraLabels_eq_injectLines]
  decide

/-- C9: a block with an empty line — a leading `'\n'` (which covers a block
that is exactly a newline followed by more content) or two consecutive
`'\n'` bytes anywhere — makes the injector panic (modelled as `none`): the
empty line contains neither a brace nor a space. -/
theorem claim_C9_empty_line_panics (dst e src1 src2 : List Char) :
    addExtraLabels dst ('\n' :: src2) e = none ∧
      addExtraLabels dst (src1 ++ '\n' :: '\n' :: src2) e = none :=
  ⟨addExtraLabels_none_of_nil_line dst e (nil_mem_linesOf_leading src2),
    addExtraLabels_none_of_nil_line dst e (nil_mem_linesOf_double src1 src2)⟩

/-- C10: the transform only appends to the supplied destination buffer:
for every destination, source block and fragment, the result is the
destination followed by what the transform produces from an empty
destination (and the panic outcome does not depend on the destination). -/
theorem claim_C10_append_only (dst src e : List Char) :
    addExtraLabels dst src e =
      (addExtraLabels [] src e).map (fun out => dst ++ out) := by
  rw [addExtraLabels_eq_injectLines, addExtraLabels_eq_injectLines]
  rcases h : injectLines (linesOf src) e with _ | ts
  · rfl
  · simp

/-- C6: `initPush` with a non-positive interval raises the configuration
fault synchronously (modelled as `none` — in the model the background loop,
and with it any snapshot or HTTP activity, only exists for a `some`
configuration); with a strictly positive interval and valid extra labels no
fault is raised and the loop is started with exactly that configuration. -/
theorem claim_C6_config_validation (interval : Int) (e : List Char) :
    (interval ≤ 0 → initPush interval e = none) ∧
      (0 < interval → validateTags e = true →
        initPush interval e = some ⟨interval, e⟩) := by
  constructor
  · intro h
    rw [initPush, if_pos h]
  · intro h1 h2
    rw [initPush, if_neg (by omega), if_pos h2]

/-- C6 witness: interval 0 faults, interval 1 with labels b="2" starts. -/
theorem claim_C6_witness :
    initPush 0 (String.toList "b=\"2\"") = none ∧
      initPush 1 (String.toList "b=\"2\"") =
        some ⟨1, String.toList "b=\"2\""⟩ :=
  ⟨(claim_C6_config_validation 0 (String.toList "b=\"2\"")).1 (by decide),
    (claim_C6_config_validation 1 (String.toList "b=\"2\"")).2 (by decide) (by decide)⟩

/-- C7: with an empty extra-labels fragment the label-injection transform is
skipped (the `len(extraLabels) > 0` guard fails) and the HTTP payload of a
tick is byte-identical to the raw snapshot. -/
theorem claim_C7_empty_labels_identity (snapshot : List Char) :
    buildPayload snapshot [] = some snapshot := by
  rw [buildPayload]
  simp

/-- C8: provided the tick's payload builds (the transform does not panic),
the push step is total — it never panics on any HTTP outcome; a transport
error yields a logged-and-continue result, a non-2xx status yields a
logged-with-status-and-continue result, and a loop over any schedule of
such ticks processes every tick (no retry, no termination): one result per
tick. -/
theorem claim_C8_delivery_failures (snap e : List Char) (oc : HttpOutcome)
    (hpay : (buildPayload snap e).isSome) :
    pushTick snap e oc ≠ TickResult.panicked ∧
      (oc = HttpOutcome.transportError →
        pushTick snap e oc = TickResult.loggedTransportError) ∧
      (∀ code, oc = HttpOutcome.response code → code / 100 ≠ 2 →
        pushTick snap e oc = TickResult.loggedBadStatus code) ∧
      (∀ ticks : List (List Char × HttpOutcome),
        (∀ t ∈ ticks, (buildPayload t.1 e).isSome) →
        ∃ rs, pushLoop e ticks = some rs ∧ rs.length = ticks.length) := by
  obtain ⟨p, hp⟩ := Option.isSome_iff_exists.1 hpay
  refine ⟨pushTick_ne_panicked oc hpay, ?_, ?_, ?_⟩
  · rintro rfl
    rw [pushTick.eq_def, hp]
  · rintro code rfl hcode
    rw [pushTick.eq_def, hp]
    simp [hcode]
  · intro ticks hticks
    induction ticks with
    | nil => exact ⟨[], rfl, rfl⟩
    | cons t rest ih =>
      obtain ⟨rs, hrs, hlen⟩ := ih (fun u hu => hticks u (List.mem_cons_of_mem _ hu))
      obtain ⟨s, o⟩ := t
      have hne := pushTick_ne_panicked o (hticks (s, o) (List.mem_cons_self _ _))
      refine ⟨pushTick s e o :: rs, ?_, by simp [hlen]⟩
      rw [pushLoop_cons e s o rest hne, hrs]
      rfl

/-- C8 witness: with no extra labels, a transport-error tick is logged and
a two-tick schedule (one transport error, one 500 response) is processed in
full, one result per tick. -/
theorem claim_C8_witness :
    pushTick (String.toList "foo 5") [] HttpOutcome.transportError =
        TickResult.loggedTransportError ∧
      ∃ rs, pushLoop []
          [(String.toList "foo 5", HttpOutcome.transportError),
            (String.toList "bar 7", HttpOutcome.response 500)] = some rs ∧
        rs.length = 2 :=
  ⟨(claim_C8_delivery_failures (String.toList "foo 5") []
      HttpOutcome.transportError (by decide)).2.1 rfl,
    (claim_C8_delivery_failures (String.toList "foo 5") []
      HttpOutcome.transportError (by decide)).2.2.2
      [(String.toList "foo 5", HttpOutcome.transportError),
        (String.toList "bar 7", HttpOutcome.response 500)] (by decide)⟩

